import Mathlib

/-!
Shallow embedding of the coursework-agent repository (a JS tool that types
essay text into Google Docs with human-like timing).

Strings from the JS side are modelled as `List Char`.  Randomness
(`Math.random()`) is modelled by oracles passed in explicitly: a rational
roll in `[0,1)` deciding whether a typo fires at each index, and a natural
pick choosing the wrong neighbour key.  Real-time sleeps do not change the
observable operation/callback trace and are elided from the trace
semantics; the delay *amounts* (`punctuationDelay`, `wpmToMsPerChar`) are
embedded as the arithmetic functions they are in the source.
-/

/-- Source `typer.js`, `punctuationDelay`: fixed extra pause (ms) keyed by
character; the JS object lookup with `?? 0` default becomes an if-chain. -/
def punctuationDelay (c : Char) : Nat :=
  if c = '.' then 400
  else if c = '!' then 350
  else if c = '?' then 380
  else if c = ',' then 120
  else if c = ';' then 180
  else if c = ':' then 150
  else if c = '\n' then 200
  else 0

/-- Source `typer.js`, `wpmToMsPerChar`: `60000 / (wpm * 6)`, over ℚ. -/
def wpmToMsPerChar (wpm : ℚ) : ℚ :=
  let charsPerMinute := wpm * 6
  60000 / charsPerMinute

/-- Source `typer.js`, `KEYBOARD_NEIGHBORS`: QWERTY adjacency table;
`none` models the absence of a key in the JS object. -/
def KEYBOARD_NEIGHBORS (c : Char) : Option (List Char) :=
  if c = 'a' then some ['q', 's', 'w', 'z']
  else if c = 'b' then some ['v', 'n', 'g', 'h']
  else if c = 'c' then some ['x', 'v', 'd', 'f']
  else if c = 'd' then some ['s', 'f', 'e', 'r']
  else if c = 'e' then some ['w', 'r', 'd', 'f']
  else if c = 'f' then some ['d', 'g', 'r', 't']
  else if c = 'g' then some ['f', 'h', 't', 'y']
  else if c = 'h' then some ['g', 'j', 'y', 'u']
  else if c = 'i' then some ['u', 'o', 'j', 'k']
  else if c = 'j' then some ['h', 'k', 'u', 'i']
  else if c = 'k' then some ['j', 'l', 'i', 'o']
  else if c = 'l' then some ['k', 'o', 'p']
  else if c = 'm' then some ['n', 'j', 'k']
  else if c = 'n' then some ['b', 'm', 'h', 'j']
  else if c = 'o' then some ['i', 'p', 'k', 'l']
  else if c = 'p' then some ['o', 'l']
  else if c = 'q' then some ['a', 'w', 's']
  else if c = 'r' then some ['e', 't', 'd', 'f']
  else if c = 's' then some ['a', 'd', 'q', 'w']
  else if c = 't' then some ['r', 'y', 'f', 'g']
  else if c = 'u' then some ['y', 'i', 'h', 'j']
  else if c = 'v' then some ['c', 'b', 'f', 'g']
  else if c = 'w' then some ['q', 'e', 'a', 's']
  else if c = 'x' then some ['z', 'c', 's', 'd']
  else if c = 'y' then some ['t', 'u', 'g', 'h']
  else if c = 'z' then some ['a', 's', 'x']
  else none

/-- Observable events of `typeWithHumanSpeed`: keystrokes sent to the page
(`page.keyboard.type`, `press('Enter')`, `press('Backspace')`) and
invocations of the `onProgress` callback. -/
inductive TEv where
  | typeChar (c : Char)
  | pressEnter
  | backspace
  | progress (c : Char) (frac : ℚ)
deriving DecidableEq

/-- Random oracle for the typo branch: `roll i` is the `Math.random()`
value tested against `typoChance` at index `i` (in `[0,1)`), `pick i` the
`Math.floor(Math.random() * len)` neighbour index. -/
structure TypoOracle where
  roll : Nat → ℚ
  pick : Nat → Nat

/-- Events emitted by the typo branch of `typeWithHumanSpeed` for the
character at index `i`: guard `simulateTypos && typoChance > 0 &&
Math.random() < typoChance`, then, if the lowercase form has a neighbour
entry and the char is not a line break, the case-matched wrong character
followed by a Backspace. -/
def typoEvents (simulateTypos : Bool) (typoChance : ℚ) (o : TypoOracle)
    (i : Nat) (char : Char) : List TEv :=
  if simulateTypos ∧ 0 < typoChance ∧ o.roll i < typoChance then
    match KEYBOARD_NEIGHBORS char.toLower with
    | some ns =>
      if char ≠ '\n' then
        let wrongChar := ns.getD (o.pick i) 'a'
        let upper := char.toUpper = char ∧ char.toLower ≠ char
        [TEv.typeChar (if upper then wrongChar.toUpper else wrongChar),
         TEv.backspace]
      else []
    | none => []
  else []

/-- The correct emission for a character: `Enter` for a line break,
otherwise the character itself. -/
def emitEvents (char : Char) : List TEv :=
  if char = '\n' then [TEv.pressEnter] else [TEv.typeChar char]

/-- The typing loop from index `i` on the remaining characters, with `n`
the full text length (JS divides by `text.length`).  `shouldStop` is the
stop predicate, evaluated before each character; a `true` answer ends the
run cleanly with no further events. -/
def typeFrom (simulateTypos : Bool) (typoChance : ℚ) (o : TypoOracle)
    (shouldStop : Nat → Bool) (n : ℚ) : Nat → List Char → List TEv
  | _, [] => []
  | i, char :: rest =>
    if shouldStop i then []
    else
      typoEvents simulateTypos typoChance o i char
        ++ emitEvents char
        ++ [TEv.progress char ((i + 1 : ℚ) / n)]
        ++ typeFrom simulateTypos typoChance o shouldStop n (i + 1) rest

/-- Source `typer.js`, `typeWithHumanSpeed`, as its trace of observable
events.  Options that only scale sleeps (`wpm`, `wpmVariance`,
`punctuationPauses`, `breakEveryChars`, `breakDurationMs`, `isPaused`)
do not change the trace and are not parameters here. -/
def typeWithHumanSpeed (simulateTypos : Bool) (typoChance : ℚ)
    (o : TypoOracle) (shouldStop : Nat → Bool) (text : List Char) :
    List TEv :=
  typeFrom simulateTypos typoChance o shouldStop (text.length : ℚ) 0 text

/-- Effect of one event on the document buffer: characters append,
Enter appends a line break, Backspace deletes the last character,
a progress callback changes nothing. -/
def applyEv (buf : List Char) : TEv → List Char
  | TEv.typeChar c => buf ++ [c]
  | TEv.pressEnter => buf ++ ['\n']
  | TEv.backspace => buf.dropLast
  | TEv.progress _ _ => buf

/-- Net document content after a trace of events. -/
def applyTrace (buf : List Char) (evs : List TEv) : List Char :=
  evs.foldl applyEv buf

/-- Projection of a trace to the fractions reported by `onProgress`. -/
def progressFracs (evs : List TEv) : List ℚ :=
  evs.filterMap fun e =>
    match e with
    | TEv.progress _ q => some q
    | _ => none

/-- Projection of a trace to keystroke events only (no callbacks). -/
def keyEvents (evs : List TEv) : List TEv :=
  evs.filter fun e =>
    match e with
    | TEv.progress _ _ => false
    | _ => true

/-! ## agent.js: URL normalisation

Source `normalizeDocUrl` (the unnamed agent file): trim, pass through
canonical identifiers, expand a bare 20+-character `[A-Za-z0-9_-]` token,
otherwise return the trimmed input.  JS `String.prototype.trim` is
embedded as `jsTrim` over character lists; `String.prototype.startsWith`
as `hasPref`; `String.prototype.includes` as `containsSeg`. -/

def isJsWs (c : Char) : Bool :=
  c = ' ' || c = '\t' || c = '\n' || c = '\r' || c = '\x0b' || c = '\x0c'

def jsTrim (s : List Char) : List Char :=
  ((s.dropWhile isJsWs).reverse.dropWhile isJsWs).reverse

def hasPref : List Char → List Char → Bool
  | [], _ => true
  | _ :: _, [] => false
  | p :: ps, c :: cs => p = c && hasPref ps cs

def containsSeg (pat : List Char) : List Char → Bool
  | [] => pat.isEmpty
  | c :: rest => hasPref pat (c :: rest) || containsSeg pat rest

def isIdChar (c : Char) : Bool := c.isAlphanum || c = '_' || c = '-'

def DOC_CANON : List Char := "https://docs.google.com/document/d/".data

def DOC_SEG : List Char := "docs.google.com/document".data

def normalizeDocUrl (url : List Char) : List Char :=
  let u := jsTrim url
  if hasPref DOC_CANON u then u
  else if containsSeg DOC_SEG u then u
  else if 20 ≤ u.length ∧ u.all isIdChar then DOC_CANON ++ u ++ "/edit".data
  else u

/-! ## agent.js: job resolution and batch execution

Source `runAgent`: each raw descriptor resolves content from
`essayContent` (inline, trimmed) or `essay` (via `loadEssay`); an empty
result skips the job with a console warning; the survivors run either
sequentially (a `for` loop awaiting `runJob`) or concurrently
(`Promise.all` over `runJob` calls).  `runJob` reports failure through
`onJobComplete(job, err)` and then rethrows.  The filesystem behind
`readFile` is an explicit oracle `fs` keyed by the trimmed path string;
failure of a job at runtime is an explicit oracle `fails`. -/

/-- Case-insensitive suffix test, modelling the `/\.(txt|md|docx?)$/i`
regex pieces of `loadEssay`. -/
def hasSufCI (suf s : List Char) : Bool :=
  hasPref (suf.reverse.map Char.toLower) (s.reverse.map Char.toLower)

/-- The extension alternatives of the `loadEssay` path regex:
`.txt`, `.md`, `.doc`, `.docx` (case-insensitive). -/
def looksLikeDocFile (s : List Char) : Bool :=
  hasSufCI ".txt".data s || hasSufCI ".md".data s ||
    hasSufCI ".doc".data s || hasSufCI ".docx".data s

/-- Source `loadEssay`: empty input gives `''`; a trimmed value that looks
like a path (no line break and a slash, backslash or document extension)
is read through the filesystem oracle and trimmed, falling back to the
trimmed inline text when the read fails; anything else is inline text. -/
def loadEssay (fs : List Char → Option (List Char))
    (essay : List Char) : List Char :=
  if essay = [] then []
  else
    let trimmed := jsTrim essay
    let mightBePath := !(trimmed.contains '\n') &&
      (trimmed.contains '/' || trimmed.contains '\\' ||
        looksLikeDocFile trimmed)
    if mightBePath then
      match fs trimmed with
      | some content => jsTrim content
      | none => trimmed
    else trimmed

/-- A raw job descriptor as consumed by `runAgent`: `essayContent` and
`essay` are `none` when the JS field is absent or not a string. -/
structure RawJob where
  docUrl : List Char
  essayContent : Option (List Char)
  essay : Option (List Char)
deriving DecidableEq

/-- A resolved job: normalised URL plus non-empty essay content. -/
structure ResolvedJob where
  docUrl : List Char
  essay : List Char
deriving DecidableEq

/-- Content resolution for one descriptor, from the loop in `runAgent`:
inline `essayContent` is trimmed; otherwise a string `essay` goes through
`loadEssay`; otherwise the content is empty. -/
def resolveJob (fs : List Char → Option (List Char)) (j : RawJob) :
    List Char :=
  match j.essayContent with
  | some s => jsTrim s
  | none =>
    match j.essay with
    | some e => loadEssay fs e
    | none => []

/-- The console warning emitted when a job is skipped for empty content. -/
def skipWarning (j : RawJob) : List Char :=
  "Skipping job (no content): ".data ++ j.docUrl

/-- The resolution loop of `runAgent`: executable jobs in order, plus the
warnings for the skipped descriptors. -/
def resolveJobs (fs : List Char → Option (List Char)) :
    List RawJob → List ResolvedJob × List (List Char)
  | [] => ([], [])
  | j :: rest =>
    let essay := resolveJob fs j
    let p := resolveJobs fs rest
    if essay = [] then (p.1, skipWarning j :: p.2)
    else (⟨normalizeDocUrl j.docUrl, essay⟩ :: p.1, p.2)

/-- Callback events observable from `runAgent` for a job `j` drawn from an
arbitrary job type `J` with errors `E`: `onJobStart` and
`onJobComplete(j, err)`. -/
inductive JobEv (J E : Type) where
  | started (j : J)
  | completed (j : J) (err : Option E)
deriving DecidableEq

/-- Trace of `runJob` for one resolved job under the failure oracle
`fails`: the start callback, then `onJobComplete(j, null)` on success or
`onJobComplete(j, err)` on failure — in the latter case `runJob` rethrows
`err` after reporting. -/
def runJob {J E : Type} (fails : J → Option E) (j : J) : List (JobEv J E) :=
  [JobEv.started j, JobEv.completed j (fails j)]

/-- Sequential branch of `runAgent`: `for (const job of jobs) await
runJob(...)`.  A rethrow from `runJob` escapes the loop, so the batch
trace stops at the first failing job and the error propagates out. -/
def runSequential {J E : Type} (fails : J → Option E) :
    List J → List (JobEv J E) × Option E
  | [] => ([], none)
  | j :: rest =>
    match fails j with
    | none =>
      let p := runSequential fails rest
      (runJob fails j ++ p.1, p.2)
    | some e => (runJob fails j, some e)

/-- Concurrent branch of `runAgent`: `Promise.all(jobs.map(runJob))`.
Every job's promise runs to its own completion or failure; a rejection
does not cancel the sibling promises, so each job contributes its full
`runJob` trace, depending only on that job. -/
def runConcurrent {J E : Type} (fails : J → Option E) (jobs : List J) :
    List (List (JobEv J E)) :=
  jobs.map (runJob fails)

/-! ## C2: punctuation pause ordering -/

/-- C2, counterexample: the claim says every clause-separator gets a longer
pause than the line break, but `punctuationDelay ',' = 120` is *shorter*
than `punctuationDelay '\n' = 200`. -/
theorem punctuationDelay_comma_not_above_newline :
    punctuationDelay ',' = 120 ∧ punctuationDelay '\n' = 200 ∧
    ¬ punctuationDelay '\n' < punctuationDelay ',' := by
  decide

/-- C2, amended: every sentence-ender pauses longer than the line break,
the line break pauses longer than every clause-separator, characters
outside the table get exactly 0, and the chain
`punctuationDelay '.' > punctuationDelay ',' > punctuationDelay c = 0`
holds for every `c` not in the table. -/
theorem punctuationDelay_order :
    (∀ s ∈ ['.', '!', '?'], ∀ c ∈ [',', ';', ':'],
      punctuationDelay '\n' < punctuationDelay s ∧
      punctuationDelay c < punctuationDelay '\n') ∧
    (∀ ch, ch ∉ ['.', '!', '?', ',', ';', ':', '\n'] →
      punctuationDelay ch = 0) ∧
    (∀ ch, ch ∉ ['.', '!', '?', ',', ';', ':', '\n'] →
      punctuationDelay ch < punctuationDelay ',' ∧
      punctuationDelay ',' < punctuationDelay '.') := by
  refine ⟨by decide, ?_, ?_⟩ <;>
  · intro ch h
    simp only [List.mem_cons, List.not_mem_nil, or_false, not_or] at h
    obtain ⟨h1, h2, h3, h4, h5, h6, h7⟩ := h
    simp [punctuationDelay, h1, h2, h3, h4, h5, h6, h7]

/-- C2 witness: the amended ordering evaluated at concrete characters. -/
theorem punctuationDelay_order_witness :
    (punctuationDelay '\n' < punctuationDelay '.' ∧
      punctuationDelay ',' < punctuationDelay '\n') ∧
    punctuationDelay 'x' = 0 ∧
    (punctuationDelay 'x' < punctuationDelay ',' ∧
      punctuationDelay ',' < punctuationDelay '.') :=
  ⟨punctuationDelay_order.1 '.' (by decide) ',' (by decide),
   punctuationDelay_order.2.1 'x' (by decide),
   punctuationDelay_order.2.2 'x' (by decide)⟩

/-! ## C5: base per-character delay -/

/-- C5: for `wpm > 0` the base per-character delay is `60000 / (wpm * 6)`
milliseconds, and it is strictly decreasing in `wpm`. -/
theorem wpmToMsPerChar_formula_antitone :
    (∀ wpm : ℚ, 0 < wpm → wpmToMsPerChar wpm = 60000 / (wpm * 6)) ∧
    (∀ w1 w2 : ℚ, 0 < w1 → w1 < w2 →
      wpmToMsPerChar w2 < wpmToMsPerChar w1) := by
  constructor
  · intro wpm _
    rfl
  · intro w1 w2 h1 h12
    unfold wpmToMsPerChar
    exact div_lt_div_of_pos_left (by norm_num) (by linarith) (by linarith)

/-- C5 witness: the formula and strict decrease at `wpm = 1` and `wpm = 2`. -/
theorem wpmToMsPerChar_formula_antitone_witness :
    wpmToMsPerChar 1 = 60000 / (1 * 6) ∧
    wpmToMsPerChar 2 < wpmToMsPerChar 1 :=
  ⟨wpmToMsPerChar_formula_antitone.1 1 (by norm_num),
   wpmToMsPerChar_formula_antitone.2 1 2 (by norm_num) (by norm_num)⟩

/-! ## Helper lemmas for the typing trace -/

theorem applyTrace_append (buf : List Char) (a b : List TEv) :
    applyTrace buf (a ++ b) = applyTrace (applyTrace buf a) b := by
  unfold applyTrace
  exact List.foldl_append _ _ _ _

theorem applyTrace_typoEvents (st : Bool) (tc : ℚ) (o : TypoOracle)
    (i : Nat) (c : Char) (buf : List Char) :
    applyTrace buf (typoEvents st tc o i c) = buf := by
  unfold typoEvents
  split
  · split
    · split
      · simp [applyTrace, applyEv]
      · rfl
    · rfl
  · rfl

theorem applyTrace_emitEvents (c : Char) (buf : List Char) :
    applyTrace buf (emitEvents c) = buf ++ [c] := by
  unfold emitEvents
  split
  · next h => simp [applyTrace, applyEv, h]
  · rfl

theorem applyTrace_typeFrom (st : Bool) (tc : ℚ) (o : TypoOracle)
    (stop : Nat → Bool) (hstop : ∀ i, stop i = false) (n : ℚ) :
    ∀ (l : List Char) (i : Nat) (buf : List Char),
      applyTrace buf (typeFrom st tc o stop n i l) = buf ++ l := by
  intro l
  induction l with
  | nil => intro i buf; simp [typeFrom, applyTrace]
  | cons c rest ih =>
    intro i buf
    rw [typeFrom, hstop i]
    simp only [if_false, Bool.false_eq_true]
    rw [applyTrace_append, applyTrace_append, applyTrace_append,
        applyTrace_typoEvents, applyTrace_emitEvents]
    rw [show applyTrace (buf ++ [c]) [TEv.progress c ((i + 1 : ℚ) / n)] =
          buf ++ [c] from rfl]
    rw [ih (i + 1) (buf ++ [c])]
    simp

theorem progressFracs_append (a b : List TEv) :
    progressFracs (a ++ b) = progressFracs a ++ progressFracs b := by
  unfold progressFracs
  exact List.filterMap_append _ _ _

theorem progressFracs_typoEvents (st : Bool) (tc : ℚ) (o : TypoOracle)
    (i : Nat) (c : Char) : progressFracs (typoEvents st tc o i c) = [] := by
  unfold typoEvents
  split
  · split
    · split
      · rfl
      · rfl
    · rfl
  · rfl

theorem progressFracs_emitEvents (c : Char) :
    progressFracs (emitEvents c) = [] := by
  unfold emitEvents
  split <;> rfl

theorem progressFracs_typeFrom (st : Bool) (tc : ℚ) (o : TypoOracle)
    (stop : Nat → Bool) (hstop : ∀ i, stop i = false) (n : ℚ) :
    ∀ (l : List Char) (i : Nat),
      progressFracs (typeFrom st tc o stop n i l) =
        (List.range l.length).map
          (fun k : Nat => ((i : ℚ) + (k : ℚ) + 1) / n) := by
  intro l
  induction l with
  | nil => intro i; simp [typeFrom, progressFracs]
  | cons c rest ih =>
    intro i
    rw [typeFrom, hstop i]
    simp only [Bool.false_eq_true, if_false]
    rw [progressFracs_append, progressFracs_append, progressFracs_append,
        progressFracs_typoEvents, progressFracs_emitEvents]
    rw [show progressFracs [TEv.progress c ((i + 1 : ℚ) / n)] =
          [(i + 1 : ℚ) / n] from rfl]
    rw [ih (i + 1)]
    rw [List.length_cons, List.range_succ_eq_map, List.map_cons, List.map_map]
    simp only [List.nil_append, List.singleton_append]
    congr 1
    · norm_num
    · congr 1
      funext k
      simp only [Function.comp_apply]
      push_cast
      ring

theorem typeFrom_stop_eq_take (st : Bool) (tc : ℚ) (o : TypoOracle)
    (stop : Nat → Bool) (n : ℚ) (k : Nat)
    (hk : ∀ j, j < k → stop j = false) (hstop : stop k = true) :
    ∀ (l : List Char) (i : Nat), i ≤ k →
      typeFrom st tc o stop n i l =
        typeFrom st tc o (fun _ => false) n i (l.take (k - i)) := by
  intro l
  induction l with
  | nil => intro i _; simp [typeFrom]
  | cons c rest ih =>
    intro i hik
    rcases Nat.lt_or_ge i k with hlt | hge
    · have hsub : k - i = (k - (i + 1)) + 1 := by omega
      rw [hsub]
      rw [List.take_succ_cons]
      rw [typeFrom, typeFrom, hk i hlt]
      simp only [Bool.false_eq_true, if_false]
      rw [ih (i + 1) (by omega)]
    · have hik' : i = k := by omega
      subst hik'
      rw [typeFrom, hstop]
      simp [Nat.sub_self, typeFrom]

/-! ## C3: typo simulation behaviour -/

/-- C3: with typos enabled and `typoChance = 1`, a character whose
lowercase form has a neighbour entry and which is not `'\n'` gets exactly
one case-matched wrong emission and one Backspace before its own correct
emission; characters with no adjacency entry and line breaks are never
perturbed for any `typoChance`; and with `typoChance = 0` the input
`"cat"` yields exactly three character emissions and no deletions. -/
theorem typo_simulation_correct :
    (∀ (o : TypoOracle) (i : Nat) (c : Char) (ns : List Char),
      o.roll i < 1 →
      KEYBOARD_NEIGHBORS c.toLower = some ns → c ≠ '\n' →
      typoEvents true 1 o i c ++ emitEvents c =
        [TEv.typeChar
            (if c.toUpper = c ∧ c.toLower ≠ c
             then (ns.getD (o.pick i) 'a').toUpper
             else ns.getD (o.pick i) 'a'),
         TEv.backspace, TEv.typeChar c]) ∧
    (∀ (st : Bool) (tc : ℚ) (o : TypoOracle) (i : Nat) (c : Char),
      KEYBOARD_NEIGHBORS c.toLower = none → typoEvents st tc o i c = []) ∧
    (∀ (st : Bool) (tc : ℚ) (o : TypoOracle) (i : Nat),
      typoEvents st tc o i '\n' = []) ∧
    (∀ o : TypoOracle,
      keyEvents (typeWithHumanSpeed true 0 o (fun _ => false)
          ['c', 'a', 't']) =
        [TEv.typeChar 'c', TEv.typeChar 'a', TEv.typeChar 't']) := by
  refine ⟨?_, ?_, ?_, ?_⟩
  · intro o i c ns h1 hns hne
    simp [typoEvents, emitEvents, hns, hne, h1]
  · intro st tc o i c h
    simp [typoEvents, h]
  · intro st tc o i
    simp only [typoEvents]
    split
    · rfl
    · rfl
  · intro o
    simp [typeWithHumanSpeed, typeFrom, typoEvents, emitEvents, keyEvents]

/-- C3 witness: concrete evaluations of the three regimes. -/
theorem typo_simulation_correct_witness :
    typoEvents true 1 ⟨fun _ => 0, fun _ => 0⟩ 0 'a' ++ emitEvents 'a' =
      [TEv.typeChar 'q', TEv.backspace, TEv.typeChar 'a'] ∧
    typoEvents true 1 ⟨fun _ => 0, fun _ => 0⟩ 0 '5' = [] ∧
    typoEvents true 1 ⟨fun _ => 0, fun _ => 0⟩ 0 '\n' = [] ∧
    keyEvents (typeWithHumanSpeed true 0 ⟨fun _ => 0, fun _ => 0⟩
        (fun _ => false) ['c', 'a', 't']) =
      [TEv.typeChar 'c', TEv.typeChar 'a', TEv.typeChar 't'] := by
  refine ⟨?_, ?_, ?_, ?_⟩
  · rw [typo_simulation_correct.1 ⟨fun _ => 0, fun _ => 0⟩ 0 'a'
        ['q', 's', 'w', 'z'] (by norm_num) (by decide) (by decide)]
    decide
  · exact typo_simulation_correct.2.1 true 1 _ 0 '5' (by decide)
  · exact typo_simulation_correct.2.2.1 true 1 _ 0
  · exact typo_simulation_correct.2.2.2 _

/-! ## C4: typo simulation never changes the net content -/

/-- C4: for every run that is never stopped early and every outcome of the
random typo rolls, the net document content produced by the trace equals
the input text: each wrong emission is cancelled by its Backspace before
the correct character is committed. -/
theorem typing_net_content (st : Bool) (tc : ℚ) (o : TypoOracle)
    (stop : Nat → Bool) (hstop : ∀ i, stop i = false) (text : List Char) :
    applyTrace [] (typeWithHumanSpeed st tc o stop text) = text := by
  rw [typeWithHumanSpeed, applyTrace_typeFrom st tc o stop hstop]
  simp

/-- C4 witness: a run over `"Hi\n"` with typos firing on every character
still nets exactly `"Hi\n"`. -/
theorem typing_net_content_witness :
    applyTrace [] (typeWithHumanSpeed true (1/2) ⟨fun _ => 0, fun _ => 0⟩
      (fun _ => false) ['H', 'i', '\n']) = ['H', 'i', '\n'] :=
  typing_net_content true (1/2) ⟨fun _ => 0, fun _ => 0⟩
    (fun _ => false) (fun _ => rfl) ['H', 'i', '\n']

/-! ## C7: the stop predicate ends the run cleanly -/

/-- C7: the stop predicate is checked before each character; if it first
holds at index `k`, the run produces exactly the trace of the first `k`
characters and nothing after — no emission, deletion or progress callback
past that point.  The embedding is a total function into a plain event
list, so the early exit is a normal return, not a raised failure. -/
theorem shouldStop_clean_early_exit (st : Bool) (tc : ℚ) (o : TypoOracle)
    (stop : Nat → Bool) (text : List Char) (k : Nat)
    (hk : ∀ j, j < k → stop j = false) (hstop : stop k = true) :
    typeWithHumanSpeed st tc o stop text =
      typeFrom st tc o (fun _ => false) (text.length : ℚ) 0 (text.take k) := by
  rw [typeWithHumanSpeed,
      typeFrom_stop_eq_take st tc o stop (text.length : ℚ) k hk hstop text 0
        (Nat.zero_le k)]
  rw [Nat.sub_zero]

/-- C7 witness: stopping at index 1 of `"ab"` yields exactly the trace of
`"a"` (with the fraction still computed against the full length 2). -/
theorem shouldStop_clean_early_exit_witness :
    typeWithHumanSpeed true 0 ⟨fun _ => 0, fun _ => 0⟩
        (fun j => decide (1 ≤ j)) ['a', 'b'] =
      typeFrom true 0 ⟨fun _ => 0, fun _ => 0⟩ (fun _ => false)
        ((['a', 'b'] : List Char).length : ℚ) 0 (['a', 'b'].take 1) :=
  shouldStop_clean_early_exit true 0 ⟨fun _ => 0, fun _ => 0⟩
    (fun j => decide (1 ≤ j)) ['a', 'b'] 1 (by decide) (by decide)

/-! ## C8: progress callback fractions -/

/-- C8: in a run over non-empty text of length `n` that is never stopped,
`onProgress` fires exactly once per character, the `i`-th invocation
reporting `(i+1)/n`; every reported fraction lies in `[0,1]` and the final
one is exactly `1`. -/
theorem progress_fracs_exact (st : Bool) (tc : ℚ) (o : TypoOracle)
    (stop : Nat → Bool) (hstop : ∀ i, stop i = false)
    (text : List Char) (hne : text ≠ []) :
    progressFracs (typeWithHumanSpeed st tc o stop text) =
      (List.range text.length).map
        (fun k : Nat => ((k : ℚ) + 1) / (text.length : ℚ)) ∧
    (∀ q ∈ progressFracs (typeWithHumanSpeed st tc o stop text),
      0 ≤ q ∧ q ≤ 1) ∧
    (progressFracs (typeWithHumanSpeed st tc o stop text)).getLast? =
      some 1 := by
  have hlen : 0 < text.length := List.length_pos.mpr hne
  have heq : progressFracs (typeWithHumanSpeed st tc o stop text) =
      (List.range text.length).map
        (fun k : Nat => ((k : ℚ) + 1) / (text.length : ℚ)) := by
    rw [typeWithHumanSpeed, progressFracs_typeFrom st tc o stop hstop]
    congr 1
    funext k
    norm_num
  refine ⟨heq, ?_, ?_⟩
  · intro q hq
    rw [heq] at hq
    obtain ⟨k, hk, rfl⟩ := List.mem_map.mp hq
    rw [List.mem_range] at hk
    have hn : (0 : ℚ) < (text.length : ℚ) := by exact_mod_cast hlen
    constructor
    · positivity
    · rw [div_le_one hn]
      have : (k : ℚ) + 1 ≤ (text.length : ℚ) := by exact_mod_cast hk
      linarith
  · rw [heq]
    obtain ⟨m, hm⟩ : ∃ m, text.length = m + 1 :=
      ⟨text.length - 1, by omega⟩
    rw [hm, List.range_succ, List.map_append]
    simp only [List.map_cons, List.map_nil]
    rw [List.getLast?_concat]
    congr 1
    rw [div_eq_one_iff_eq]
    · push_cast; ring
    · push_cast
      positivity

/-- C8 witness: the fractions reported for `"ab"` are `[1/2, 1]`. -/
theorem progress_fracs_exact_witness :
    progressFracs (typeWithHumanSpeed true 0 ⟨fun _ => 0, fun _ => 0⟩
        (fun _ => false) ['a', 'b']) =
      (List.range 2).map (fun k : Nat => ((k : ℚ) + 1) / (2 : ℚ)) := by
  have h := (progress_fracs_exact true 0 ⟨fun _ => 0, fun _ => 0⟩
    (fun _ => false) (fun _ => rfl) ['a', 'b'] (by decide)).1
  simpa using h

-- lemmas
theorem head?_dropWhile_false (p : Char → Bool) (l : List Char) (a : Char)
    (h : (l.dropWhile p).head? = some a) : p a = false := by
  induction l with
  | nil => simp at h
  | cons c rest ih =>
    rw [List.dropWhile_cons] at h
    by_cases hc : p c
    · rw [if_pos hc] at h; exact ih h
    · rw [if_neg hc] at h
      simp at h
      subst h
      simpa using hc

theorem getLast?_dropWhile (p : Char → Bool) (l : List Char) (a : Char)
    (h : (l.dropWhile p).getLast? = some a) : l.getLast? = some a := by
  induction l with
  | nil => simp at h
  | cons c rest ih =>
    rw [List.dropWhile_cons] at h
    by_cases hc : p c
    · rw [if_pos hc] at h
      have hr := ih h
      obtain ⟨r, rs, rfl⟩ : ∃ r rs, rest = r :: rs := by
        cases rest with
        | nil => simp at hr
        | cons r rs => exact ⟨r, rs, rfl⟩
      rw [List.getLast?_cons_cons]
      exact hr
    · rw [if_neg hc] at h
      exact h

theorem dropWhile_eq_self_of_head (p : Char → Bool) (l : List Char)
    (h : ∀ a, l.head? = some a → p a = false) : l.dropWhile p = l := by
  cases l with
  | nil => rfl
  | cons c rest =>
    rw [List.dropWhile_cons, if_neg]
    simp [h c rfl]

theorem jsTrim_noLeadWs (s : List Char) (a : Char)
    (h : (jsTrim s).head? = some a) : isJsWs a = false := by
  unfold jsTrim at h
  rw [List.head?_reverse] at h
  have h2 := getLast?_dropWhile isJsWs _ _ h
  rw [List.getLast?_reverse] at h2
  exact head?_dropWhile_false isJsWs _ _ h2

theorem jsTrim_idem (s : List Char) : jsTrim (jsTrim s) = jsTrim s := by
  have h1 : (jsTrim s).dropWhile isJsWs = jsTrim s :=
    dropWhile_eq_self_of_head _ _ (jsTrim_noLeadWs s)
  show (((jsTrim s).dropWhile isJsWs).reverse.dropWhile isJsWs).reverse = jsTrim s
  rw [h1]
  unfold jsTrim
  rw [List.reverse_reverse, List.dropWhile_idempotent]

theorem hasPref_of_append (p r : List Char) : hasPref p (p ++ r) = true := by
  induction p with
  | nil => rfl
  | cons c cs ih => simp [hasPref, ih]

theorem mem_of_hasPref (p u : List Char) (h : hasPref p u = true) :
    ∀ c ∈ p, c ∈ u := by
  induction p generalizing u with
  | nil => intro c hc; simp at hc
  | cons x xs ih =>
    cases u with
    | nil => simp [hasPref] at h
    | cons y ys =>
      simp only [hasPref, Bool.and_eq_true, decide_eq_true_eq] at h
      obtain ⟨rfl, h2⟩ := h
      intro c hc
      rcases List.mem_cons.mp hc with rfl | hc
      · exact List.mem_cons_self _ _
      · exact List.mem_cons_of_mem _ (ih ys h2 c hc)

theorem mem_of_containsSeg (pat u : List Char) (h : containsSeg pat u = true)
    (hne : pat ≠ []) : ∀ c ∈ pat, c ∈ u := by
  induction u with
  | nil =>
    exfalso
    apply hne
    simpa [containsSeg, List.isEmpty_iff] using h
  | cons y ys ih =>
    rw [containsSeg, Bool.or_eq_true] at h
    rcases h with h | h
    · exact mem_of_hasPref pat (y :: ys) h
    · intro c hc
      exact List.mem_cons_of_mem _ (ih h c hc)

theorem jsTrim_eq_self (l : List Char)
    (hh : ∀ a, l.head? = some a → isJsWs a = false)
    (hl : ∀ a, l.getLast? = some a → isJsWs a = false) :
    jsTrim l = l := by
  unfold jsTrim
  rw [dropWhile_eq_self_of_head _ _ hh]
  rw [dropWhile_eq_self_of_head]
  · exact List.reverse_reverse l
  · intro a ha
    rw [List.head?_reverse] at ha
    exact hl a ha

/-- C9: `normalizeDocUrl` trims its input and then: an identifier that is
already canonical (begins with the canonical document prefix or contains
`docs.google.com/document`) passes through unchanged; a bare token of 20+
characters drawn from letters, digits, `'_'` and `'-'` is expanded to
`https://docs.google.com/document/d/<token>/edit` (such a token can match
neither canonical test, so no extra disjointness hypothesis is needed);
every other input passes through unchanged. -/
theorem normalizeDocUrl_cases (url : List Char) :
    (hasPref DOC_CANON (jsTrim url) = true ∨
        containsSeg DOC_SEG (jsTrim url) = true →
      normalizeDocUrl url = jsTrim url) ∧
    (20 ≤ (jsTrim url).length ∧ (jsTrim url).all isIdChar = true →
      normalizeDocUrl url = DOC_CANON ++ jsTrim url ++ "/edit".data) ∧
    (hasPref DOC_CANON (jsTrim url) = false →
      containsSeg DOC_SEG (jsTrim url) = false →
      ¬(20 ≤ (jsTrim url).length ∧ (jsTrim url).all isIdChar = true) →
      normalizeDocUrl url = jsTrim url) := by
  refine ⟨?_, ?_, ?_⟩
  · intro h
    rcases h with h | h
    · simp [normalizeDocUrl, h]
    · by_cases h1 : hasPref DOC_CANON (jsTrim url) = true
      · simp [normalizeDocUrl, h1]
      · simp [normalizeDocUrl, h1, h]
  · intro ⟨hlen, hall⟩
    have hmem : ∀ c ∈ jsTrim url, isIdChar c = true := by
      intro c hc
      exact List.all_eq_true.mp hall c hc
    have h1 : hasPref DOC_CANON (jsTrim url) = false := by
      by_contra hne
      rw [Bool.not_eq_false] at hne
      have : (':' : Char) ∈ jsTrim url :=
        mem_of_hasPref _ _ hne ':' (by decide)
      have := hmem ':' this
      simp [isIdChar] at this
    have h2 : containsSeg DOC_SEG (jsTrim url) = false := by
      by_contra hne
      rw [Bool.not_eq_false] at hne
      have : ('.' : Char) ∈ jsTrim url :=
        mem_of_containsSeg _ _ hne (by decide) '.' (by decide)
      have := hmem '.' this
      simp [isIdChar] at this
    simp [normalizeDocUrl, h1, h2, hlen, hall]
  · intro h1 h2 h3
    simp only [normalizeDocUrl, h1, h2, Bool.false_eq_true, if_false]
    rw [if_neg h3]

/-- C10: `normalizeDocUrl` is idempotent — in particular the canonical
URL built from a bare token starts with the canonical prefix and passes
through unchanged on a second normalisation. -/
theorem normalizeDocUrl_idem (url : List Char) :
    normalizeDocUrl (normalizeDocUrl url) = normalizeDocUrl url := by
  by_cases h1 : hasPref DOC_CANON (jsTrim url) = true
  · have hres : normalizeDocUrl url = jsTrim url := by
      simp [normalizeDocUrl, h1]
    rw [hres]
    have htrim : jsTrim (jsTrim url) = jsTrim url := jsTrim_idem url
    simp [normalizeDocUrl, htrim, h1]
  · by_cases h2 : containsSeg DOC_SEG (jsTrim url) = true
    · have hres : normalizeDocUrl url = jsTrim url := by
        simp [normalizeDocUrl, h1, h2]
      rw [hres]
      have htrim : jsTrim (jsTrim url) = jsTrim url := jsTrim_idem url
      simp [normalizeDocUrl, htrim, h1, h2]
    · by_cases h3 : 20 ≤ (jsTrim url).length ∧ (jsTrim url).all isIdChar = true
      · have hres : normalizeDocUrl url =
            DOC_CANON ++ jsTrim url ++ "/edit".data := by
          simp only [normalizeDocUrl, Bool.not_eq_true] at h1 h2 ⊢
          simp only [h1, h2, Bool.false_eq_true, if_false]
          rw [if_pos h3]
        rw [hres]
        have htrim : jsTrim (DOC_CANON ++ jsTrim url ++ "/edit".data) =
            DOC_CANON ++ jsTrim url ++ "/edit".data := by
          apply jsTrim_eq_self
          · intro a ha
            rw [List.append_assoc] at ha
            rw [List.head?_append_of_ne_nil _ (by decide)] at ha
            rw [show DOC_CANON.head? = some 'h' from rfl] at ha
            obtain rfl : 'h' = a := by simpa using ha
            decide
          · intro a ha
            rw [List.getLast?_append_of_ne_nil _ (by decide)] at ha
            rw [show ("/edit".data : List Char).getLast? = some 't' from rfl] at ha
            obtain rfl : 't' = a := by simpa using ha
            decide
        have hpref : hasPref DOC_CANON
            (DOC_CANON ++ jsTrim url ++ "/edit".data) = true := by
          rw [List.append_assoc]
          exact hasPref_of_append _ _
        simp only [normalizeDocUrl, htrim, hpref, if_true]
      · have hres : normalizeDocUrl url = jsTrim url := by
          simp only [normalizeDocUrl, Bool.not_eq_true] at h1 h2 ⊢
          simp only [h1, h2, Bool.false_eq_true, if_false]
          rw [if_neg h3]
        rw [hres]
        have htrim : jsTrim (jsTrim url) = jsTrim url := jsTrim_idem url
        simp only [normalizeDocUrl, htrim]
        simp only [Bool.not_eq_true] at h1 h2
        simp only [h1, h2, Bool.false_eq_true, if_false]
        rw [if_neg h3]

/-- C9 witness: the three branches evaluated on concrete inputs — a
canonical URL with surrounding whitespace passes through trimmed, a
20-character token is expanded, and free text passes through trimmed. -/
theorem normalizeDocUrl_cases_witness :
    normalizeDocUrl (" https://docs.google.com/document/d/abc/edit".data) =
      jsTrim (" https://docs.google.com/document/d/abc/edit".data) ∧
    normalizeDocUrl ("abcdefghij0123456789".data) =
      DOC_CANON ++ jsTrim ("abcdefghij0123456789".data) ++ "/edit".data ∧
    normalizeDocUrl ("hello world".data) = jsTrim ("hello world".data) :=
  ⟨(normalizeDocUrl_cases _).1 (Or.inl (by decide)),
   (normalizeDocUrl_cases _).2.1 ⟨by decide, by decide⟩,
   (normalizeDocUrl_cases _).2.2 (by decide) (by decide) (by decide)⟩

/-! ## C1: failure isolation between jobs -/

/-- C1, counterexample: in sequential mode, when job 0 fails, job 1 —
although resolved — is never started and never completed: the rethrow
from `runJob` aborts the remaining iterations, contradicting the claim
that siblings still run in both modes. -/
theorem seq_failure_skips_sibling :
    (runSequential (fun j => if j = 0 then some 7 else none) [0, 1]).1 =
      [JobEv.started 0, JobEv.completed 0 (some 7)] ∧
    JobEv.completed 1 (none : Option Nat) ∉
      (runSequential (fun j => if j = 0 then some 7 else none) [0, 1]).1 := by
  decide

theorem runSequential_prefix_ok {J E : Type} (fails : J → Option E)
    (j : J) (e : E) (he : fails j = some e) (post : List J) :
    ∀ pre : List J, (∀ p ∈ pre, fails p = none) →
      runSequential fails (pre ++ j :: post) =
        ((pre.map (runJob fails)).flatten ++ runJob fails j, some e) := by
  intro pre
  induction pre with
  | nil =>
    intro _
    rw [List.nil_append, runSequential, he]
    simp
  | cons p ps ih =>
    intro hpre
    have hp : fails p = none := hpre p (List.mem_cons_self p ps)
    rw [List.cons_append, runSequential, hp]
    rw [ih (fun q hq => hpre q (List.mem_cons_of_mem p hq))]
    simp [List.flatten]

/-- C1, amended: a failing job is reported via `onComplete(job, error)`
for that job alone.  In concurrent mode every sibling still contributes
its full trace (runs to completion or its own failure).  In sequential
mode the jobs before the failing one complete normally, but the rethrown
error ends the loop: the jobs after the failing one are not run. -/
theorem job_failure_isolation {J E : Type} (fails : J → Option E)
    (pre post : List J) (j : J) (e : E) (he : fails j = some e) :
    (runConcurrent fails (pre ++ j :: post) =
      pre.map (runJob fails) ++
        [JobEv.started j, JobEv.completed j (some e)] ::
          post.map (runJob fails)) ∧
    ((∀ p ∈ pre, fails p = none) →
      runSequential fails (pre ++ j :: post) =
        ((pre.map (runJob fails)).flatten ++
          [JobEv.started j, JobEv.completed j (some e)], some e)) := by
  constructor
  · simp [runConcurrent, runJob, he]
  · intro hpre
    have h := runSequential_prefix_ok fails j e he post pre hpre
    rw [h]
    simp [runJob, he]

/-- C1 witness: one healthy job before and after the failing job 0. -/
theorem job_failure_isolation_witness :
    (runConcurrent (fun k => if k = 0 then some 7 else none)
        ([5] ++ 0 :: [1]) =
      ([5] : List Nat).map
          (runJob (fun k => if k = 0 then some 7 else none)) ++
        [JobEv.started 0, JobEv.completed 0 (some 7)] ::
          ([1] : List Nat).map
            (runJob (fun k => if k = 0 then some 7 else none))) ∧
    runSequential (fun k => if k = 0 then some 7 else none)
        ([5] ++ 0 :: [1]) =
      ((([5] : List Nat).map
          (runJob (fun k => if k = 0 then some 7 else none))).flatten ++
        [JobEv.started 0, JobEv.completed 0 (some 7)], some 7) := by
  have h := job_failure_isolation (fun k => if k = 0 then some 7 else none)
    [5] [1] 0 7 (by decide)
  exact ⟨h.1, h.2 (by decide)⟩

/-! ## C6: empty-content jobs are excluded, the batch is never aborted -/

theorem resolveJobs_skip (fs : List Char → Option (List Char))
    (j : RawJob) (hj : resolveJob fs j = []) (post : List RawJob) :
    ∀ pre : List RawJob,
      (resolveJobs fs (pre ++ j :: post)).1 =
        (resolveJobs fs (pre ++ post)).1 := by
  intro pre
  induction pre with
  | nil =>
    simp only [List.nil_append]
    rw [resolveJobs]
    simp [hj]
  | cons p ps ih =>
    rw [List.cons_append, List.cons_append]
    simp only [resolveJobs]
    by_cases hp : resolveJob fs p = []
    · simp [hp, ih]
    · simp [hp, ih]

/-- C6: resolution is total (never aborts the batch): the executable set
is exactly the descriptors with non-empty resolved content, in order;
each skipped descriptor yields its non-fatal warning; and removing an
empty-content descriptor from anywhere in the batch leaves the
executable set of the remaining jobs unchanged. -/
theorem empty_content_excluded (fs : List Char → Option (List Char))
    (jobs : List RawJob) :
    (resolveJobs fs jobs).1 =
      (jobs.filter (fun j => !decide (resolveJob fs j = []))).map
        (fun j => ⟨normalizeDocUrl j.docUrl, resolveJob fs j⟩) ∧
    (resolveJobs fs jobs).2 =
      (jobs.filter (fun j => decide (resolveJob fs j = []))).map
        skipWarning ∧
    (∀ (pre post : List RawJob) (j : RawJob), jobs = pre ++ j :: post →
      resolveJob fs j = [] →
      (resolveJobs fs jobs).1 = (resolveJobs fs (pre ++ post)).1) := by
  refine ⟨?_, ?_, ?_⟩
  · induction jobs with
    | nil => rfl
    | cons j rest ih =>
      rw [resolveJobs]
      by_cases hj : resolveJob fs j = []
      · simp [hj, ih, List.filter_cons]
      · simp [hj, ih, List.filter_cons]
  · induction jobs with
    | nil => rfl
    | cons j rest ih =>
      rw [resolveJobs]
      by_cases hj : resolveJob fs j = []
      · simp [hj, ih, List.filter_cons]
      · simp [hj, ih, List.filter_cons]
  · intro pre post j hdecomp hj
    subst hdecomp
    exact resolveJobs_skip fs j hj post pre

/-- C6 witness: a batch with one whitespace-only descriptor and one real
one resolves to the same executable set as the batch without it. -/
theorem empty_content_excluded_witness :
    (resolveJobs (fun _ => none)
        [⟨"d1".data, some "   ".data, none⟩,
         ⟨"d2".data, some "hi".data, none⟩]).1 =
      (resolveJobs (fun _ => none)
        [⟨"d2".data, some "hi".data, none⟩]).1 := by
  have h := (empty_content_excluded (fun _ => none)
      [⟨"d1".data, some "   ".data, none⟩,
       ⟨"d2".data, some "hi".data, none⟩]).2.2
    [] [⟨"d2".data, some "hi".data, none⟩]
    ⟨"d1".data, some "   ".data, none⟩ rfl (by decide)
  simpa using h
